import Mathlib

/-!
Verification of the engagement-tracking core of the job-tracker backend
(`src/server.js`).  Strings are modelled as `List Char`; the JavaScript
regular expression used by `rewriteLinksForTracking` is embedded as an
explicit backtracking matcher faithful to ECMAScript semantics for that
specific pattern, and `encodeURIComponent` / `decodeURIComponent` are
modelled including UTF-8 byte handling and `URIError` (as `Option`).
-/

namespace JobTracker

/-- Shorthand turning a Lean string literal into the `List Char` model. -/
def str (s : String) : List Char := s.toList

/-- ASCII lower-casing, used to model the `i` (ignore-case) regex flag. -/
def lcA (c : Char) : Char :=
  if 65 ≤ c.toNat ∧ c.toNat ≤ 90 then Char.ofNat (c.toNat + 32) else c

/-- ECMAScript `\s` character class (WhiteSpace ∪ LineTerminator). -/
def isWsJS (c : Char) : Bool :=
  decide (c.toNat = 32 ∨ c.toNat = 9 ∨ c.toNat = 10 ∨ c.toNat = 11 ∨
    c.toNat = 12 ∨ c.toNat = 13 ∨ c.toNat = 160 ∨ c.toNat = 5760 ∨
    (8192 ≤ c.toNat ∧ c.toNat ≤ 8202) ∨ c.toNat = 8232 ∨ c.toNat = 8233 ∨
    c.toNat = 8239 ∨ c.toNat = 8287 ∨ c.toNat = 12288 ∨ c.toNat = 65279)

/-- ECMAScript LineTerminator class: `.` (without the `s` flag) matches
anything except these. -/
def isLineTerm (c : Char) : Bool :=
  decide (c.toNat = 10 ∨ c.toNat = 13 ∨ c.toNat = 8232 ∨ c.toNat = 8233)

/-- Model of JavaScript `String.prototype.startsWith` on `List Char`
(first argument is the pattern). -/
def startsWithL : List Char → List Char → Bool
  | [], _ => true
  | _ :: _, [] => false
  | p :: ps, c :: cs => p == c && startsWithL ps cs

/-- The three capture groups of the anchor regex in
`rewriteLinksForTracking` (`src/server.js:76`): the `href` value, the
attribute text after the closing quote, and the anchor's inner content. -/
structure AnchorMatch where
  url : List Char
  attrs : List Char
  content : List Char
deriving DecidableEq, Repr

/-- Match a literal case-insensitively (regex `i` flag) at the head of the
input, returning the remaining suffix. -/
def matchLitCI : List Char → List Char → Option (List Char)
  | [], s => some s
  | _ :: _, [] => none
  | c :: cs, d :: ds => if lcA d = lcA c then matchLitCI cs ds else none

/-- The literal `href="` of the regex. -/
def hrefLit : List Char := str "href=\x22"

/-- The literal `</a>` of the regex. -/
def closeLit : List Char := str "</a>"

/-- Lazy `(.*?)` followed by `</a>`: returns the shortest content (of
non-line-terminator characters) up to a case-insensitive `</a>`, plus the
suffix after that close tag. -/
def findClose : List Char → Option (List Char × List Char)
  | [] => none
  | c :: rest =>
    match matchLitCI closeLit (c :: rest) with
    | some r => some ([], r)
    | none =>
      if isLineTerm c then none
      else (findClose rest).map (fun p => (c :: p.1, p.2))

/-- Deterministic tail of the regex starting at the `href` literal:
`href="([^"]*)"([^>]*)>(.*?)</a>`.  The two greedy character-class
captures admit no backtracking because the character following them is
excluded from the class. -/
def matchRest (t : List Char) : Option (AnchorMatch × List Char) :=
  match matchLitCI hrefLit t with
  | none => none
  | some t1 =>
    match t1.dropWhile (fun c => c ≠ '\x22') with
    | '\x22' :: t3 =>
      match t3.dropWhile (fun c => c ≠ '>') with
      | '>' :: t5 =>
        match findClose t5 with
        | some (content, r) =>
          some (⟨t1.takeWhile (fun c => c ≠ '\x22'),
                 t3.takeWhile (fun c => c ≠ '>'), content⟩, r)
        | none => none
      | _ => none
    | _ => none

/-- Backtracking over the `\s+` inside the optional group
`(?:[^>]*?\s+)?`: greedy, so try the longest whitespace run first.
`tryDownSfx u k` attempts `matchRest` at `u.drop k`, then `u.drop (k-1)`,
…, down to `u.drop 1`. -/
def tryDownSfx (u : List Char) : Nat → Option (AnchorMatch × List Char)
  | 0 => none
  | k + 1 =>
    match matchRest (u.drop (k + 1)) with
    | some x => some x
    | none => tryDownSfx u k

/-- Lazy expansion of `[^>]*?` inside the optional group: positions are
tried left to right; at each whitespace position the greedy `\s+`
candidates are tried.  Scanning stops at `>` (excluded from the class). -/
def groupGo : List Char → Option (AnchorMatch × List Char)
  | [] => none
  | c :: rest =>
    if c = '>' then none
    else
      match (if isWsJS c then
               tryDownSfx (c :: rest) ((c :: rest).takeWhile isWsJS).length
             else none) with
      | some x => some x
      | none => groupGo rest

/-- Matcher for the part of the regex after `<a`: `\s+` (greedy; its
backtracking provably cannot turn failure into success for this pattern,
see `src/server.js:76`), then the optional group, then the rest. -/
def matchAfterA (w : List Char) : Option (AnchorMatch × List Char) :=
  match w with
  | [] => none
  | c :: _ =>
    if isWsJS c then
      let w' := w.dropWhile isWsJS
      match groupGo w' with
      | some x => some x
      | none => matchRest w'
    else none

/-- Attempt the whole regex at the head of `s`.  On success returns the
matched text, the captures, and the suffix after the match. -/
def tryMatchHere (s : List Char) : Option (List Char × AnchorMatch × List Char) :=
  match s with
  | '<' :: c :: w =>
    if lcA c = 'a' then
      match matchAfterA w with
      | some (am, rest) => some (s.take (s.length - rest.length), am, rest)
      | none => none
    else none
  | _ => none

/-- Global replace (the `g` flag of `String.prototype.replace`): scan left
to right, replacing each match via `f` and continuing after it.  `fuel`
bounds the recursion; every step consumes at least one character, so the
input length is sufficient fuel. -/
def replaceGo (f : List Char → AnchorMatch → List Char) : Nat → List Char → List Char
  | 0, s => s
  | _ + 1, [] => []
  | fuel + 1, c :: rest =>
    match tryMatchHere (c :: rest) with
    | some (m, am, r) => f m am ++ replaceGo f fuel r
    | none => c :: replaceGo f fuel rest

/-- The list of (matched text, captures) pairs the global replace visits,
in order. -/
def matchesGo : Nat → List Char → List (List Char × AnchorMatch)
  | 0, _ => []
  | _ + 1, [] => []
  | fuel + 1, c :: rest =>
    match tryMatchHere (c :: rest) with
    | some (m, am, r) => (m, am) :: matchesGo fuel r
    | none => matchesGo fuel rest

/-- All anchor matches of the regex in an HTML fragment. -/
def anchorMatches (s : List Char) : List (List Char × AnchorMatch) :=
  matchesGo s.length s

/-- Characters `encodeURIComponent` leaves unescaped:
`A-Z a-z 0-9 - _ . ! ~ * ' ( )`. -/
def isUriUnreserved (c : Char) : Bool :=
  (decide (65 ≤ c.toNat ∧ c.toNat ≤ 90)) ||
  (decide (97 ≤ c.toNat ∧ c.toNat ≤ 122)) ||
  (decide (48 ≤ c.toNat ∧ c.toNat ≤ 57)) ||
  c == '-' || c == '_' || c == '.' || c == '!' || c == '~' || c == '*' ||
  c == Char.ofNat 39 || c == '(' || c == ')'

/-- UTF-8 encoding of a Unicode scalar value, as byte values. -/
def utf8Bytes (n : Nat) : List Nat :=
  if n < 128 then [n]
  else if n < 2048 then [192 + n / 64, 128 + n % 64]
  else if n < 65536 then [224 + n / 4096, 128 + n / 64 % 64, 128 + n % 64]
  else [240 + n / 262144, 128 + n / 4096 % 64, 128 + n / 64 % 64, 128 + n % 64]

/-- Upper-case hexadecimal digit, as produced by `encodeURIComponent`. -/
def hexDig (d : Nat) : Char :=
  if d < 10 then Char.ofNat (48 + d) else Char.ofNat (55 + d)

/-- Percent-escape of one byte: `%XY`. -/
def pctEncodeByte (b : Nat) : List Char :=
  ['%', hexDig (b / 16), hexDig (b % 16)]

/-- Model of JavaScript `encodeURIComponent` on `List Char`. -/
def encodeURIComponent (s : List Char) : List Char :=
  s.flatMap (fun c =>
    if isUriUnreserved c then [c]
    else (utf8Bytes c.toNat).flatMap pctEncodeByte)

/-- Value of a hexadecimal digit character (either case), as accepted by
percent-escapes in `decodeURIComponent`. -/
def hexVal (c : Char) : Option Nat :=
  if 48 ≤ c.toNat ∧ c.toNat ≤ 57 then some (c.toNat - 48)
  else if 65 ≤ c.toNat ∧ c.toNat ≤ 70 then some (c.toNat - 55)
  else if 97 ≤ c.toNat ∧ c.toNat ≤ 102 then some (c.toNat - 87)
  else none

/-- First phase of `decodeURIComponent`: turn every `%XY` escape into a
byte token, leaving other characters as character tokens.  `none` models a
thrown `URIError` (percent not followed by two hex digits). -/
def pctTokens : List Char → Option (List (Char ⊕ Nat))
  | [] => some []
  | c :: rest =>
    if c = '%' then
      match rest with
      | h1 :: h2 :: rest2 =>
        match hexVal h1, hexVal h2 with
        | some a, some b =>
          (pctTokens rest2).map (fun t => Sum.inr (a * 16 + b) :: t)
        | _, _ => none
      | _ => none
    else (pctTokens rest).map (fun t => Sum.inl c :: t)

/-- One step of the strict UTF-8 validation `decodeURIComponent` performs:
given a leading byte `b` and the following tokens, parse one scalar value
(continuation bytes must themselves be percent-escape byte tokens;
overlong forms, surrogates and out-of-range values are rejected).  Returns
the scalar value and the remaining tokens. -/
def utf8Head (b : Nat) (t : List (Char ⊕ Nat)) :
    Option (Nat × List (Char ⊕ Nat)) :=
  if b < 128 then some (b, t)
  else if b < 194 then none
  else if b < 224 then
    match t with
    | Sum.inr b2 :: t2 =>
      if 128 ≤ b2 ∧ b2 < 192 then some ((b - 192) * 64 + (b2 - 128), t2)
      else none
    | _ => none
  else if b < 240 then
    match t with
    | Sum.inr b2 :: Sum.inr b3 :: t3 =>
      if (128 ≤ b2 ∧ b2 < 192) ∧ (128 ≤ b3 ∧ b3 < 192) then
        if 2048 ≤ (b - 224) * 4096 + (b2 - 128) * 64 + (b3 - 128) ∧
            ((b - 224) * 4096 + (b2 - 128) * 64 + (b3 - 128) < 55296 ∨
             57344 ≤ (b - 224) * 4096 + (b2 - 128) * 64 + (b3 - 128)) then
          some ((b - 224) * 4096 + (b2 - 128) * 64 + (b3 - 128), t3)
        else none
      else none
    | _ => none
  else if b < 245 then
    match t with
    | Sum.inr b2 :: Sum.inr b3 :: Sum.inr b4 :: t4 =>
      if (128 ≤ b2 ∧ b2 < 192) ∧ (128 ≤ b3 ∧ b3 < 192) ∧
          (128 ≤ b4 ∧ b4 < 192) then
        if 65536 ≤ (b - 240) * 262144 + (b2 - 128) * 4096
              + (b3 - 128) * 64 + (b4 - 128) ∧
            (b - 240) * 262144 + (b2 - 128) * 4096 + (b3 - 128) * 64
              + (b4 - 128) < 1114112 then
          some ((b - 240) * 262144 + (b2 - 128) * 4096 + (b3 - 128) * 64
            + (b4 - 128), t4)
        else none
      else none
    | _ => none
  else none

/-- Second phase of `decodeURIComponent`: strict UTF-8 decoding of the
byte tokens; character tokens pass through.  `fuel` bounds the recursion;
each step consumes at least one token, so the token count is sufficient
fuel. -/
def utf8DecodeGo : Nat → List (Char ⊕ Nat) → Option (List Char)
  | _, [] => some []
  | 0, _ :: _ => none
  | fuel + 1, Sum.inl c :: t => (utf8DecodeGo fuel t).map (fun l => c :: l)
  | fuel + 1, Sum.inr b :: t =>
    match utf8Head b t with
    | some (v, t2) => (utf8DecodeGo fuel t2).map (fun l => Char.ofNat v :: l)
    | none => none

/-- Strict UTF-8 decoding of a whole token stream. -/
def utf8Decode (ts : List (Char ⊕ Nat)) : Option (List Char) :=
  utf8DecodeGo ts.length ts

/-- Model of JavaScript `decodeURIComponent`; `none` models `URIError`. -/
def decodeURIComponent (s : List Char) : Option (List Char) :=
  (pctTokens s).bind utf8Decode

/-- The tracking indirection URL built at `src/server.js:82`:
`BASE_URL + "/api/click?id=" + trackingId + "&url=" + encodedUrl`. -/
def trackingUrlOf (baseUrl trackingId url : List Char) : List Char :=
  baseUrl ++ str "/api/click?id=" ++ trackingId ++ str "&url=" ++
    encodeURIComponent url

/-- The replacement callback of `src/server.js:78-84`: `mailto:` and `#`
hrefs are returned unchanged; otherwise the anchor is rebuilt from the
tracking URL, the post-href attributes and the inner content. -/
def anchorReplacer (baseUrl trackingId : List Char)
    (matched : List Char) (am : AnchorMatch) : List Char :=
  if startsWithL (str "mailto:") am.url || startsWithL (str "#") am.url then
    matched
  else
    str "<a href=\x22" ++ trackingUrlOf baseUrl trackingId am.url ++
      str "\x22" ++ am.attrs ++ str ">" ++ am.content ++ str "</a>"

/-- Model of `rewriteLinksForTracking` (`src/server.js:75-85`).  The
`BASE_URL` configuration value is passed explicitly. -/
def rewriteLinksForTracking (baseUrl htmlBody trackingId : List Char) : List Char :=
  replaceGo (anchorReplacer baseUrl trackingId) htmlBody.length htmlBody

/-- The `status` enum of the tracking schema (`src/server.js:29`). -/
inductive Status where
  | SENT
  | OPENED
deriving DecidableEq, Repr

/-- The `method` enum of the tracking schema (`src/server.js:30`); the
schema's `null` is modelled as `Option.none`. -/
inductive Method where
  | PIXEL
  | CLICK
deriving DecidableEq, Repr

/-- A tracking record (`src/server.js:22-36`).  Timestamps are `Nat`. -/
structure Record where
  trackingId : List Char
  /-- The schema's `to` field (`to` is a reserved word in Lean). -/
  toAddr : List Char
  subject : List Char
  body : List Char
  role : List Char
  company : List Char
  status : Status
  method : Option Method
  sentAt : Nat
  openedAt : Option Nat
  ipAddress : Option (List Char)
  userAgent : Option (List Char)
  openCount : Nat
deriving DecidableEq, Repr

/-- The record written by `Tracking.create` in the send handler
(`src/server.js:99-111`). -/
def createRecord (trackingId toAddr subject body role company : List Char)
    (now : Nat) : Record :=
  { trackingId := trackingId, toAddr := toAddr, subject := subject, body := body
    role := role, company := company
    status := Status.SENT, method := none, sentAt := now, openedAt := none
    ipAddress := none, userAgent := none, openCount := 0 }

/-- Effect of the click handler's `updateData` on a found record
(`src/server.js:180-193`): `openedAt` falls back to `now` only when null,
`method` falls back to `CLICK` only when null, counter incremented, requester
fields overwritten, and `status := OPENED` only when not already opened. -/
def applyClick (r : Record) (now : Nat) (ip ua : List Char) : Record :=
  { r with
    openedAt := some (r.openedAt.getD now)
    method := some (r.method.getD Method.CLICK)
    openCount := r.openCount + 1
    ipAddress := some ip
    userAgent := some ua
    status := if r.status ≠ Status.OPENED then Status.OPENED else r.status }

/-- Effect of the pixel handler's `updateData` on a found record
(`src/server.js:215-228`): counter incremented and requester fields
overwritten always; `status`, `openedAt` and `method` set only when the
record is not yet `OPENED`. -/
def applyPixel (r : Record) (now : Nat) (ip ua : List Char) : Record :=
  let base := { r with
    openCount := r.openCount + 1
    ipAddress := some ip
    userAgent := some ua }
  if r.status ≠ Status.OPENED then
    { base with
      status := Status.OPENED
      openedAt := some now
      method := some Method.PIXEL }
  else base

/-- An engagement event: a pixel fetch or a click, with its request
context (timestamp, requester ip, user agent). -/
inductive Ev where
  | pixel (now : Nat) (ip ua : List Char)
  | click (now : Nat) (ip ua : List Char)
deriving DecidableEq, Repr

/-- The channel an event belongs to, as a `method` value. -/
def Ev.channel : Ev → Method
  | .pixel _ _ _ => Method.PIXEL
  | .click _ _ _ => Method.CLICK

/-- The timestamp carried by an event. -/
def Ev.now : Ev → Nat
  | .pixel n _ _ => n
  | .click n _ _ => n

/-- Apply one engagement event to a record. -/
def applyEv (r : Record) (e : Ev) : Record :=
  match e with
  | .pixel now ip ua => applyPixel r now ip ua
  | .click now ip ua => applyClick r now ip ua

/-- Apply a sequence of engagement events, left to right. -/
def applyEvents (r : Record) (evs : List Ev) : Record :=
  evs.foldl applyEv r

/-- The record store, keyed by tracking identifier (the `trackingId`
field used by `findOne` and `updateOne`). -/
def Db := List (List Char × Record)

/-- `Tracking.findOne (trackingId := id)`: first record with the key. -/
def findDb (id : List Char) : Db → Option Record
  | [] => none
  | (k, v) :: rest => if k = id then some v else findDb id rest

/-- `Tracking.updateOne (trackingId := id)`: replace the first record with
the key. -/
def updateDb (id : List Char) (r : Record) : Db → Db
  | [] => []
  | (k, v) :: rest =>
    if k = id then (k, r) :: rest else (k, v) :: updateDb id r rest

/-- Outcome of a request to `GET /api/click`. -/
inductive ClickResult where
  /-- 400 "Missing parameters" (`src/server.js:170-172`). -/
  | badRequest
  /-- `res.redirect` to the given target (`src/server.js:196,199`). -/
  | redirect (target : List Char)
  /-- `decodeURIComponent` threw in both the try and the catch block, so
  the error escapes to the framework's error handler. -/
  | serverError
deriving DecidableEq, Repr

/-- Model of the click handler (`src/server.js:167-201`).  `fails = true`
models the record-store lookup/update throwing, in which case the catch
block still issues the redirect without mutating the store. -/
def clickEndpoint (db : Db) (fails : Bool) (id url : List Char)
    (now : Nat) (ip ua : List Char) : Db × ClickResult :=
  if id = [] ∨ url = [] then (db, ClickResult.badRequest)
  else if fails then
    match decodeURIComponent url with
    | some t => (db, ClickResult.redirect t)
    | none => (db, ClickResult.serverError)
  else
    let db' :=
      match findDb id db with
      | some r => updateDb id (applyClick r now ip ua) db
      | none => db
    match decodeURIComponent url with
    | some t => (db', ClickResult.redirect t)
    | none => (db', ClickResult.serverError)

/-- Response of `GET /api/pixel/:id`: an HTTP status plus the body, which
the handler always builds from the fixed base64-encoded 1×1 transparent
PNG (`src/server.js:234-248`). -/
structure PixelResult where
  status : Nat
  bodyBase64 : List Char
deriving DecidableEq, Repr

/-- The fixed base64 payload of the tracking pixel (`src/server.js:236`). -/
def pngBase64 : List Char :=
  str "iVBORw0KGgoAAAANSUhEUgAAAAEAAAABCAQAAAC1HAwCAAAAC0lEQVR42mNkYAAAAAYAAjCB0C8AAAAASUVORK5CYII="

/-- The response the pixel handler always returns. -/
def pixelResponse : PixelResult := ⟨200, pngBase64⟩

/-- Model of the pixel handler (`src/server.js:206-249`).  `fails = true`
models the record-store lookup/update throwing; the catch block swallows
the error and the fixed PNG is returned in every case. -/
def pixelEndpoint (db : Db) (fails : Bool) (id : List Char)
    (now : Nat) (ip ua : List Char) : Db × PixelResult :=
  if fails then (db, pixelResponse)
  else
    match findDb id db with
    | some r => (updateDb id (applyPixel r now ip ua) db, pixelResponse)
    | none => (db, pixelResponse)

/-! URI component encoding and decoding lemmas. -/

theorem char_valid_nat (c : Char) :
    c.toNat < 55296 ∨ (57343 < c.toNat ∧ c.toNat < 1114112) := by
  have h := c.valid
  unfold UInt32.isValidChar Nat.isValidChar at h
  exact h

theorem hexVal_hexDig (d : Nat) (h : d < 16) : hexVal (hexDig d) = some d := by
  unfold hexVal hexDig
  interval_cases d <;> decide

theorem pctTokens_pct (b : Nat) (hb : b < 256) (rest : List Char) :
    pctTokens (pctEncodeByte b ++ rest) =
      (pctTokens rest).map (fun t => Sum.inr b :: t) := by
  show pctTokens ('%' :: hexDig (b / 16) :: hexDig (b % 16) :: rest) = _
  conv_lhs => unfold pctTokens
  rw [if_pos rfl]
  dsimp only
  rw [hexVal_hexDig (b / 16) (by omega), hexVal_hexDig (b % 16) (by omega)]
  dsimp only
  have e : b / 16 * 16 + b % 16 = b := by omega
  simp only [e]

theorem pctTokens_lit (c : Char) (hc : c ≠ '%') (rest : List Char) :
    pctTokens (c :: rest) = (pctTokens rest).map (fun t => Sum.inl c :: t) := by
  conv_lhs => unfold pctTokens
  rw [if_neg hc]

theorem pctTokens_bytes (bs : List Nat) (rest : List Char)
    (h : ∀ b ∈ bs, b < 256) :
    pctTokens (bs.flatMap pctEncodeByte ++ rest) =
      (pctTokens rest).map (fun t => bs.map Sum.inr ++ t) := by
  induction bs with
  | nil => simp
  | cons b bs ih =>
    rw [List.flatMap_cons, List.append_assoc,
      pctTokens_pct b (h b (by simp)) _,
      ih (fun x hx => h x (List.mem_cons_of_mem b hx)), Option.map_map]
    rfl

/-- The token stream `encodeURIComponent` produces: unreserved characters
kept literally, every other character as the escapes of its UTF-8 bytes. -/
def encTokens (u : List Char) : List (Char ⊕ Nat) :=
  u.flatMap (fun c =>
    if isUriUnreserved c then [Sum.inl c] else (utf8Bytes c.toNat).map Sum.inr)

theorem utf8Bytes_lt (n : Nat) (hn : n < 1114112) :
    ∀ b ∈ utf8Bytes n, b < 256 := by
  intro b hb
  unfold utf8Bytes at hb
  by_cases h1 : n < 128
  · rw [if_pos h1] at hb
    simp at hb
    omega
  · rw [if_neg h1] at hb
    by_cases h2 : n < 2048
    · rw [if_pos h2] at hb
      simp at hb
      omega
    · rw [if_neg h2] at hb
      by_cases h3 : n < 65536
      · rw [if_pos h3] at hb
        simp at hb
        omega
      · rw [if_neg h3] at hb
        simp at hb
        omega

theorem pctTokens_encode (u : List Char) :
    pctTokens (encodeURIComponent u) = some (encTokens u) := by
  induction u with
  | nil => rfl
  | cons c u ih =>
    show pctTokens ((if isUriUnreserved c then [c]
        else (utf8Bytes c.toNat).flatMap pctEncodeByte)
          ++ encodeURIComponent u) = _
    by_cases hc : isUriUnreserved c = true
    · have hpc : c ≠ '%' := by
        intro h
        rw [h] at hc
        exact absurd hc (by decide)
      rw [if_pos hc, List.singleton_append, pctTokens_lit c hpc, ih]
      simp [encTokens, hc]
    · have hn : c.toNat < 1114112 := by
        rcases char_valid_nat c with h | h <;> omega
      rw [if_neg hc, pctTokens_bytes _ _ (utf8Bytes_lt c.toNat hn), ih]
      simp [encTokens, hc]

theorem utf8Head_len (b : Nat) (t : List (Char ⊕ Nat)) (v : Nat)
    (t2 : List (Char ⊕ Nat)) (h : utf8Head b t = some (v, t2)) :
    t2.length ≤ t.length := by
  unfold utf8Head at h
  repeat' split at h
  all_goals try exact Option.noConfusion h
  all_goals injection h with h1
  all_goals injection h1 with h2 h3
  all_goals subst h3
  all_goals simp
  all_goals omega

theorem utf8DecodeGo_fuel : ∀ (fuel fuel' : Nat) (ts : List (Char ⊕ Nat)),
    ts.length ≤ fuel → ts.length ≤ fuel' →
    utf8DecodeGo fuel ts = utf8DecodeGo fuel' ts := by
  intro fuel
  induction fuel with
  | zero =>
    intro fuel' ts h1 h2
    cases ts with
    | nil => cases fuel' <;> rfl
    | cons x t => simp at h1
  | succ fuel ih =>
    intro fuel' ts h1 h2
    cases ts with
    | nil => cases fuel' <;> rfl
    | cons x t =>
      cases fuel' with
      | zero => simp at h2
      | succ fuel' =>
        cases x with
        | inl c =>
          show (utf8DecodeGo fuel t).map _ = (utf8DecodeGo fuel' t).map _
          rw [ih fuel' t (by simp at h1; omega) (by simp at h2; omega)]
        | inr b =>
          have e1 : utf8DecodeGo (fuel + 1) (Sum.inr b :: t)
              = match utf8Head b t with
                | some (v, t2) =>
                  (utf8DecodeGo fuel t2).map (fun l => Char.ofNat v :: l)
                | none => none := rfl
          have e2 : utf8DecodeGo (fuel' + 1) (Sum.inr b :: t)
              = match utf8Head b t with
                | some (v, t2) =>
                  (utf8DecodeGo fuel' t2).map (fun l => Char.ofNat v :: l)
                | none => none := rfl
          rw [e1, e2]
          cases hh : utf8Head b t with
          | none => rfl
          | some p =>
            obtain ⟨v, t2⟩ := p
            have hlen := utf8Head_len b t v t2 hh
            dsimp only
            rw [ih fuel' t2 (by simp at h1; omega) (by simp at h2; omega)]

theorem utf8Decode_inl_step (c : Char) (t : List (Char ⊕ Nat)) :
    utf8Decode (Sum.inl c :: t) = (utf8Decode t).map (fun l => c :: l) := rfl

theorem utf8Decode_inr_step (b : Nat) (t : List (Char ⊕ Nat)) (v : Nat)
    (t2 : List (Char ⊕ Nat)) (h : utf8Head b t = some (v, t2)) :
    utf8Decode (Sum.inr b :: t) =
      (utf8Decode t2).map (fun l => Char.ofNat v :: l) := by
  show utf8DecodeGo (t.length + 1) (Sum.inr b :: t) = _
  conv_lhs => unfold utf8DecodeGo
  rw [h]
  dsimp only
  rw [utf8DecodeGo_fuel t.length t2.length t2
    (utf8Head_len b t v t2 h) (Nat.le_refl _)]
  rfl

theorem utf8Head_one (b : Nat) (hb : b < 128) (t : List (Char ⊕ Nat)) :
    utf8Head b t = some (b, t) := by
  unfold utf8Head
  rw [if_pos hb]

theorem utf8Head_two (b1 b2 : Nat) (t : List (Char ⊕ Nat))
    (h1 : 194 ≤ b1) (h2 : b1 < 224) (h3 : 128 ≤ b2) (h4 : b2 < 192) :
    utf8Head b1 (Sum.inr b2 :: t) =
      some ((b1 - 192) * 64 + (b2 - 128), t) := by
  unfold utf8Head
  rw [if_neg (by omega), if_neg (by omega), if_pos h2]
  dsimp only
  rw [if_pos ⟨h3, h4⟩]

theorem utf8Head_three (b1 b2 b3 : Nat) (t : List (Char ⊕ Nat))
    (h1 : 224 ≤ b1) (h2 : b1 < 240) (h3 : 128 ≤ b2) (h4 : b2 < 192)
    (h5 : 128 ≤ b3) (h6 : b3 < 192)
    (hv : 2048 ≤ (b1 - 224) * 4096 + (b2 - 128) * 64 + (b3 - 128) ∧
      ((b1 - 224) * 4096 + (b2 - 128) * 64 + (b3 - 128) < 55296 ∨
       57344 ≤ (b1 - 224) * 4096 + (b2 - 128) * 64 + (b3 - 128))) :
    utf8Head b1 (Sum.inr b2 :: Sum.inr b3 :: t) =
      some ((b1 - 224) * 4096 + (b2 - 128) * 64 + (b3 - 128), t) := by
  unfold utf8Head
  rw [if_neg (by omega), if_neg (by omega), if_neg (by omega), if_pos h2]
  dsimp only
  rw [if_pos ⟨⟨h3, h4⟩, h5, h6⟩, if_pos hv]

theorem utf8Head_four (b1 b2 b3 b4 : Nat) (t : List (Char ⊕ Nat))
    (h1 : 240 ≤ b1) (h2 : b1 < 245) (h3 : 128 ≤ b2) (h4 : b2 < 192)
    (h5 : 128 ≤ b3) (h6 : b3 < 192) (h7 : 128 ≤ b4) (h8 : b4 < 192)
    (hv : 65536 ≤ (b1 - 240) * 262144 + (b2 - 128) * 4096
        + (b3 - 128) * 64 + (b4 - 128) ∧
      (b1 - 240) * 262144 + (b2 - 128) * 4096 + (b3 - 128) * 64 + (b4 - 128)
        < 1114112) :
    utf8Head b1 (Sum.inr b2 :: Sum.inr b3 :: Sum.inr b4 :: t) =
      some ((b1 - 240) * 262144 + (b2 - 128) * 4096 + (b3 - 128) * 64
        + (b4 - 128), t) := by
  unfold utf8Head
  rw [if_neg (by omega), if_neg (by omega), if_neg (by omega),
    if_neg (by omega), if_pos h2]
  dsimp only
  rw [if_pos ⟨⟨h3, h4⟩, ⟨h5, h6⟩, ⟨h7, h8⟩⟩, if_pos hv]

theorem utf8Decode_bytes (c : Char) (t : List (Char ⊕ Nat)) :
    utf8Decode ((utf8Bytes c.toNat).map Sum.inr ++ t) =
      (utf8Decode t).map (fun l => c :: l) := by
  have hval := char_valid_nat c
  by_cases h1 : c.toNat < 128
  · rw [show utf8Bytes c.toNat = [c.toNat] from by
      unfold utf8Bytes; rw [if_pos h1]]
    show utf8Decode (Sum.inr c.toNat :: t) = _
    rw [utf8Decode_inr_step _ _ _ _ (utf8Head_one c.toNat h1 t),
      Char.ofNat_toNat]
  · by_cases h2 : c.toNat < 2048
    · rw [show utf8Bytes c.toNat
          = [192 + c.toNat / 64, 128 + c.toNat % 64] from by
        unfold utf8Bytes; rw [if_neg h1, if_pos h2]]
      show utf8Decode (Sum.inr (192 + c.toNat / 64)
        :: Sum.inr (128 + c.toNat % 64) :: t) = _
      rw [utf8Decode_inr_step _ _ _ _
        (utf8Head_two _ _ t (by omega) (by omega) (by omega) (by omega))]
      have e : (192 + c.toNat / 64 - 192) * 64 + (128 + c.toNat % 64 - 128)
          = c.toNat := by omega
      rw [e, Char.ofNat_toNat]
    · by_cases h3 : c.toNat < 65536
      · rw [show utf8Bytes c.toNat = [224 + c.toNat / 4096,
            128 + c.toNat / 64 % 64, 128 + c.toNat % 64] from by
          unfold utf8Bytes; rw [if_neg h1, if_neg h2, if_pos h3]]
        show utf8Decode (Sum.inr (224 + c.toNat / 4096)
          :: Sum.inr (128 + c.toNat / 64 % 64)
          :: Sum.inr (128 + c.toNat % 64) :: t) = _
        have e : (224 + c.toNat / 4096 - 224) * 4096
            + (128 + c.toNat / 64 % 64 - 128) * 64
            + (128 + c.toNat % 64 - 128) = c.toNat := by omega
        rw [utf8Decode_inr_step _ _ _ _
          (utf8Head_three _ _ _ t (by omega) (by omega) (by omega)
            (by omega) (by omega) (by omega) (by rw [e]; omega))]
        rw [e, Char.ofNat_toNat]
      · rw [show utf8Bytes c.toNat = [240 + c.toNat / 262144,
            128 + c.toNat / 4096 % 64, 128 + c.toNat / 64 % 64,
            128 + c.toNat % 64] from by
          unfold utf8Bytes; rw [if_neg h1, if_neg h2, if_neg h3]]
        show utf8Decode (Sum.inr (240 + c.toNat / 262144)
          :: Sum.inr (128 + c.toNat / 4096 % 64)
          :: Sum.inr (128 + c.toNat / 64 % 64)
          :: Sum.inr (128 + c.toNat % 64) :: t) = _
        have e : (240 + c.toNat / 262144 - 240) * 262144
            + (128 + c.toNat / 4096 % 64 - 128) * 4096
            + (128 + c.toNat / 64 % 64 - 128) * 64
            + (128 + c.toNat % 64 - 128) = c.toNat := by omega
        rw [utf8Decode_inr_step _ _ _ _
          (utf8Head_four _ _ _ _ t (by omega) (by omega) (by omega)
            (by omega) (by omega) (by omega) (by omega) (by omega)
            (by rw [e]; omega))]
        rw [e, Char.ofNat_toNat]

theorem utf8Decode_encTokens (u : List Char) :
    utf8Decode (encTokens u) = some u := by
  induction u with
  | nil => rfl
  | cons c u ih =>
    show utf8Decode ((if isUriUnreserved c then [Sum.inl c]
        else (utf8Bytes c.toNat).map Sum.inr) ++ encTokens u) = _
    by_cases hc : isUriUnreserved c = true
    · rw [if_pos hc, List.singleton_append, utf8Decode_inl_step, ih]
      rfl
    · rw [if_neg hc, utf8Decode_bytes, ih]
      rfl

theorem decode_encode (u : List Char) :
    decodeURIComponent (encodeURIComponent u) = some u := by
  unfold decodeURIComponent
  rw [pctTokens_encode, Option.some_bind, utf8Decode_encTokens]

theorem utf8Decode_inl (u : List Char) :
    utf8Decode (u.map Sum.inl) = some u := by
  induction u with
  | nil => rfl
  | cons c u ih =>
    rw [List.map_cons, utf8Decode_inl_step, ih]
    rfl

theorem decode_no_pct (u : List Char) (h : '%' ∉ u) :
    decodeURIComponent u = some u := by
  unfold decodeURIComponent
  have hp : pctTokens u = some (u.map Sum.inl) := by
    induction u with
    | nil => rfl
    | cons c u ih =>
      have hc : c ≠ '%' := fun hcc => h (hcc ▸ List.mem_cons_self c u)
      rw [pctTokens_lit c hc, ih (fun hm => h (List.mem_cons_of_mem c hm))]
      rfl
  rw [hp, Option.some_bind, utf8Decode_inl]

/-! Engagement state machine lemmas. -/

theorem applyEv_openCount (r : Record) (e : Ev) :
    (applyEv r e).openCount = r.openCount + 1 := by
  cases e with
  | pixel now ip ua =>
    simp only [applyEv, applyPixel]
    split <;> rfl
  | click now ip ua => rfl

theorem applyEvents_openCount (evs : List Ev) :
    ∀ r : Record, (applyEvents r evs).openCount = r.openCount + evs.length := by
  induction evs with
  | nil => intro r; rfl
  | cons e evs ih =>
    intro r
    show (applyEvents (applyEv r e) evs).openCount = _
    rw [ih, applyEv_openCount]
    simp only [List.length_cons]
    omega

theorem applyEv_fresh (r : Record) (e : Ev)
    (h1 : r.status = Status.SENT) (h2 : r.openedAt = none)
    (h3 : r.method = none) :
    (applyEv r e).status = Status.OPENED ∧
    (applyEv r e).openedAt = some e.now ∧
    (applyEv r e).method = some e.channel := by
  cases e with
  | pixel now ip ua =>
    simp only [applyEv, applyPixel, h1, Ev.now, Ev.channel]
    simp [h2, h3]
  | click now ip ua =>
    simp only [applyEv, applyClick, h1, h2, h3, Ev.now, Ev.channel]
    simp

theorem applyEv_opened (r : Record) (e : Ev) (t : Nat) (m : Method)
    (h1 : r.status = Status.OPENED) (h2 : r.openedAt = some t)
    (h3 : r.method = some m) :
    (applyEv r e).status = Status.OPENED ∧
    (applyEv r e).openedAt = some t ∧
    (applyEv r e).method = some m := by
  cases e with
  | pixel now ip ua =>
    simp only [applyEv, applyPixel, h1]
    simp [h2, h3]
  | click now ip ua =>
    simp only [applyEv, applyClick, h1, h2, h3]
    simp

theorem applyEvents_opened (evs : List Ev) :
    ∀ (r : Record) (t : Nat) (m : Method),
    r.status = Status.OPENED → r.openedAt = some t → r.method = some m →
    (applyEvents r evs).status = Status.OPENED ∧
    (applyEvents r evs).openedAt = some t ∧
    (applyEvents r evs).method = some m := by
  induction evs with
  | nil => intro r t m h1 h2 h3; exact ⟨h1, h2, h3⟩
  | cons e evs ih =>
    intro r t m h1 h2 h3
    have h := applyEv_opened r e t m h1 h2 h3
    exact ih (applyEv r e) t m h.1 h.2.1 h.2.2

theorem applyEvents_first (trackingId toAddr subject body role company : List Char)
    (now0 : Nat) (e : Ev) (evs : List Ev) :
    (applyEvents (createRecord trackingId toAddr subject body role company now0)
      (e :: evs)).status = Status.OPENED ∧
    (applyEvents (createRecord trackingId toAddr subject body role company now0)
      (e :: evs)).openedAt = some e.now ∧
    (applyEvents (createRecord trackingId toAddr subject body role company now0)
      (e :: evs)).method = some e.channel := by
  have hf := applyEv_fresh
    (createRecord trackingId toAddr subject body role company now0) e rfl rfl rfl
  exact applyEvents_opened evs _ e.now e.channel hf.1 hf.2.1 hf.2.2

/-- C3: on a record as created by the send handler, `method` is set by the
first engagement event — to `PIXEL` for a pixel fetch, `CLICK` for a click
— and no subsequent sequence of events of either channel changes it (so
click-then-pixel leaves `CLICK`, pixel-then-click leaves `PIXEL`). -/
theorem method_set_by_first_event_only
    (trackingId toAddr subject body role company : List Char) (now0 : Nat)
    (e : Ev) (evs : List Ev) :
    (applyEvents (createRecord trackingId toAddr subject body role company now0)
      (e :: evs)).method = some e.channel :=
  (applyEvents_first trackingId toAddr subject body role company now0 e evs).2.2

/-- C4: starting from any record with `openCount = 0` (as freshly created
ones are), after any finite sequence of engagement events, applied
sequentially, `openCount` equals exactly the number of events. -/
theorem openCount_equals_event_count (r : Record) (evs : List Ev)
    (h : r.openCount = 0) :
    (applyEvents r evs).openCount = evs.length := by
  rw [applyEvents_openCount, h, Nat.zero_add]

/-- Witness for C4 at a concrete fresh record and a concrete two-event
sequence (a pixel fetch then a click). -/
theorem openCount_equals_event_count_witness :
    (applyEvents (createRecord (str "abc123") (str "a@b.c") (str "s")
        (str "b") (str "r") (str "c") 0)
      [Ev.pixel 1 (str "ip1") (str "ua1"), Ev.click 2 (str "ip2") (str "ua2")]
      ).openCount = 2 :=
  openCount_equals_event_count _ _ rfl

/-- C5: a record is created with `status = SENT` and `openedAt = null`;
after the first engagement event of any kind, and after any further
events, `status` is `OPENED` and `openedAt` is the first event's
timestamp — the status never reverts and the timestamp never changes. -/
theorem status_opened_once_openedAt_immutable
    (trackingId toAddr subject body role company : List Char) (now0 : Nat)
    (e : Ev) (evs : List Ev) :
    (createRecord trackingId toAddr subject body role company now0).status
        = Status.SENT ∧
    (createRecord trackingId toAddr subject body role company now0).openedAt
        = none ∧
    (applyEvents (createRecord trackingId toAddr subject body role company now0)
      (e :: evs)).status = Status.OPENED ∧
    (applyEvents (createRecord trackingId toAddr subject body role company now0)
      (e :: evs)).openedAt = some e.now :=
  ⟨rfl, rfl,
    (applyEvents_first trackingId toAddr subject body role company now0 e evs).1,
    (applyEvents_first trackingId toAddr subject body role company now0 e evs).2.1⟩

/-- The three-way engagement invariant of the data model:
`status = OPENED` iff `method` is non-null iff `openedAt` is non-null. -/
def engagementInv (r : Record) : Prop :=
  (r.status = Status.OPENED ↔ r.method ≠ none) ∧
  (r.status = Status.OPENED ↔ r.openedAt ≠ none)

/-- C6: the engagement invariant holds at creation (`SENT`, null, null)
and is preserved by every pixel-fetch and click-redirect update. -/
theorem engagement_invariant :
    (∀ (trackingId toAddr subject body role company : List Char) (now0 : Nat),
      engagementInv (createRecord trackingId toAddr subject body role company now0))
    ∧ (∀ (r : Record) (e : Ev), engagementInv r → engagementInv (applyEv r e)) := by
  constructor
  · intro trackingId toAddr subject body role company now0
    constructor <;> simp [createRecord]
  · intro r e hinv
    cases e with
    | pixel now ip ua =>
      by_cases h : r.status = Status.OPENED
      · have hm : r.method ≠ none := hinv.1.mp h
        have ho : r.openedAt ≠ none := hinv.2.mp h
        simp only [engagementInv, applyEv, applyPixel, h]
        simp [h, hm, ho]
      · simp only [engagementInv, applyEv, applyPixel]
        simp [h]
    | click now ip ua =>
      simp only [engagementInv, applyEv, applyClick]
      constructor <;> constructor <;> intro <;> simp_all

/-- Witness for C6: the invariant, established at a concrete fresh record
by the first part, is preserved across a concrete pixel event by the
second part. -/
theorem engagement_invariant_witness :
    engagementInv (applyEv (createRecord (str "abc123") (str "a@b.c")
      (str "s") (str "b") (str "r") (str "c") 0)
      (Ev.pixel 5 (str "ip") (str "ua"))) :=
  engagement_invariant.2 _ _
    (engagement_invariant.1 (str "abc123") (str "a@b.c") (str "s") (str "b")
      (str "r") (str "c") 0)

/-! Click and pixel endpoint theorems. -/

/-- C2 (amended): for an original href `u` that is non-empty and contains
no percent character, and a non-empty tracking id, the click endpoint
invoked with the once-decoded `url` query parameter (the framework's
decoding of the percent-encoded value the rewriter embedded) redirects to
exactly `u`, whether or not the store lookup succeeds.  The handler
applies `decodeURIComponent` a second time (`src/server.js:196`), so for
`u` containing `%` the redirect target differs from `u` (see the
counterexample). -/
theorem click_roundtrip_redirects_original
    (u id : List Char) (db : Db) (fails : Bool) (now : Nat)
    (ip ua q : List Char)
    (hu : '%' ∉ u) (hne : u ≠ []) (hid : id ≠ [])
    (hq : decodeURIComponent (encodeURIComponent u) = some q) :
    (clickEndpoint db fails id q now ip ua).2 = ClickResult.redirect u := by
  have hqu : u = q := Option.some.inj ((decode_encode u).symm.trans hq)
  subst hqu
  unfold clickEndpoint
  rw [if_neg (by simp [hid, hne])]
  by_cases hf : fails = true
  · rw [if_pos hf, decode_no_pct u hu]
  · rw [if_neg hf, decode_no_pct u hu]

/-- Witness for C2 (amended) on the spec's own example URL. -/
theorem click_roundtrip_redirects_original_witness :
    (clickEndpoint [] false (str "abc123") (str "https://x.com") 0 [] []).2
      = ClickResult.redirect (str "https://x.com") :=
  click_roundtrip_redirects_original (str "https://x.com") (str "abc123")
    [] false 0 [] [] (str "https://x.com")
    (by decide) (by decide) (by decide) (by decide)

/-- C2 counterexample: for the caller-supplied href `a%20b`, the rewriter
encodes it as `a%2520b`, the framework's single decode hands the handler
`a%20b`, and the handler's own `decodeURIComponent` turns it into `a b` —
the redirect target is not the original URL. -/
theorem click_roundtrip_double_decode_cex :
    decodeURIComponent (encodeURIComponent (str "a%20b"))
        = some (str "a%20b")
    ∧ (clickEndpoint [] false (str "t") (str "a%20b") 0 [] []).2
        = ClickResult.redirect (str "a b")
    ∧ ClickResult.redirect (str "a b")
        ≠ ClickResult.redirect (str "a%20b") :=
  ⟨by decide, by decide, by decide⟩

/-- C7 (amended): for a non-empty id and a non-empty, percent-decodable
url, the click endpoint always redirects to the decoded url and the pixel
endpoint always returns the fixed PNG with status 200 — also when the
record-store lookup/update throws (`fails = true`) or no record matches —
and in those two cases the store is left unmutated.  When `url` is not
percent-decodable the click handler throws in both its try and catch
blocks and an error escapes (see the counterexample); an empty id or url
yields a 400 instead of a redirect. -/
theorem tracking_failure_never_blocks_response
    (db : Db) (fails : Bool) (id url : List Char) (now : Nat)
    (ip ua t : List Char)
    (hid : id ≠ []) (hurl : url ≠ [])
    (hdec : decodeURIComponent url = some t) :
    ((clickEndpoint db fails id url now ip ua).2 = ClickResult.redirect t
      ∧ (fails = true → (clickEndpoint db fails id url now ip ua).1 = db)
      ∧ (findDb id db = none →
          (clickEndpoint db fails id url now ip ua).1 = db))
    ∧ ((pixelEndpoint db fails id now ip ua).2 = pixelResponse
      ∧ (fails = true → (pixelEndpoint db fails id now ip ua).1 = db)
      ∧ (findDb id db = none →
          (pixelEndpoint db fails id now ip ua).1 = db)) := by
  constructor
  · unfold clickEndpoint
    rw [if_neg (by simp [hid, hurl])]
    by_cases hf : fails = true
    · rw [if_pos hf, hdec]
      exact ⟨rfl, fun _ => rfl, fun _ => rfl⟩
    · rw [if_neg hf, hdec]
      cases hfd : findDb id db with
      | none => exact ⟨rfl, fun h => absurd h hf, fun _ => rfl⟩
      | some r => exact ⟨rfl, fun h => absurd h hf, fun h => nomatch h⟩
  · unfold pixelEndpoint
    by_cases hf : fails = true
    · rw [if_pos hf]
      exact ⟨rfl, fun _ => rfl, fun _ => rfl⟩
    · rw [if_neg hf]
      cases hfd : findDb id db with
      | none => exact ⟨rfl, fun h => absurd h hf, fun _ => rfl⟩
      | some r => exact ⟨rfl, fun h => absurd h hf, fun h => nomatch h⟩

/-- Witness for C7 (amended): with a throwing store and no records, the
click still redirects and the pixel still returns the fixed PNG. -/
theorem tracking_failure_never_blocks_response_witness :
    (clickEndpoint [] true (str "a") (str "x") 0 [] []).2
        = ClickResult.redirect (str "x")
    ∧ (pixelEndpoint [] true (str "a") 0 [] []).2 = pixelResponse :=
  ⟨(tracking_failure_never_blocks_response [] true (str "a") (str "x") 0 [] []
      (str "x") (by decide) (by decide) (by decide)).1.1,
   (tracking_failure_never_blocks_response [] true (str "a") (str "x") 0 [] []
      (str "x") (by decide) (by decide) (by decide)).2.1⟩

/-- C7 counterexample: a url consisting of a bare percent sign is not
decodable; `decodeURIComponent` throws in the try block and again in the
catch block, so the requester gets an error instead of a redirect. -/
theorem click_undecodable_url_error_cex :
    (clickEndpoint [] false (str "abc") (str "%") 0 [] []).2
      = ClickResult.serverError := by decide

/-! Link rewriter theorems. -/

theorem mem_matchesGo_isInfix (f : List Char → AnchorMatch → List Char) :
    ∀ (fuel : Nat) (s m : List Char) (am : AnchorMatch),
    (m, am) ∈ matchesGo fuel s →
    List.IsInfix (f m am) (replaceGo f fuel s) := by
  intro fuel
  induction fuel with
  | zero => intro s m am h; exact absurd h (by simp [matchesGo])
  | succ fuel ih =>
    intro s m am h
    cases s with
    | nil => exact absurd h (by simp [matchesGo])
    | cons c rest =>
      cases htm : tryMatchHere (c :: rest) with
      | some x =>
        obtain ⟨m2, am2, r⟩ := x
        have hmg : matchesGo (fuel + 1) (c :: rest)
            = (m2, am2) :: matchesGo fuel r := by
          conv_lhs => unfold matchesGo
          rw [htm]
        have hrg : replaceGo f (fuel + 1) (c :: rest)
            = f m2 am2 ++ replaceGo f fuel r := by
          conv_lhs => unfold replaceGo
          rw [htm]
        rw [hmg] at h
        rw [hrg]
        rcases List.mem_cons.mp h with heq | htail
        · injection heq with h1 h2
          subst h1
          subst h2
          exact ⟨[], replaceGo f fuel r, by simp⟩
        · obtain ⟨a, b, hab⟩ := ih r m am htail
          exact ⟨f m2 am2 ++ a, b, by rw [← hab]; simp⟩
      | none =>
        have hmg : matchesGo (fuel + 1) (c :: rest) = matchesGo fuel rest := by
          conv_lhs => unfold matchesGo
          rw [htm]
        have hrg : replaceGo f (fuel + 1) (c :: rest)
            = c :: replaceGo f fuel rest := by
          conv_lhs => unfold replaceGo
          rw [htm]
        rw [hmg] at h
        rw [hrg]
        obtain ⟨a, b, hab⟩ := ih rest m am h
        exact ⟨c :: a, b, by rw [← hab]; simp⟩

/-- C8: every anchor the regex matches whose href starts with `mailto:`
or `#` is passed through the rewrite byte-identically: the matched anchor
text itself occurs verbatim in the rewritten fragment. -/
theorem mailto_fragment_anchors_unchanged
    (baseUrl s trackingId m : List Char) (am : AnchorMatch)
    (hm : (m, am) ∈ anchorMatches s)
    (hurl : startsWithL (str "mailto:") am.url = true ∨
            startsWithL (str "#") am.url = true) :
    List.IsInfix m (rewriteLinksForTracking baseUrl s trackingId) := by
  have hrepl : anchorReplacer baseUrl trackingId m am = m := by
    rcases hurl with h | h <;> simp [anchorReplacer, h]
  have hinf := mem_matchesGo_isInfix (anchorReplacer baseUrl trackingId)
    s.length s m am hm
  rw [hrepl] at hinf
  exact hinf

/-- Witness for C8 at a concrete mailto anchor. -/
theorem mailto_fragment_anchors_unchanged_witness :
    List.IsInfix (str "<a href=\x22mailto:x@y.com\x22>m</a>")
      (rewriteLinksForTracking (str "B")
        (str "<a href=\x22mailto:x@y.com\x22>m</a>") (str "T")) :=
  mailto_fragment_anchors_unchanged (str "B")
    (str "<a href=\x22mailto:x@y.com\x22>m</a>") (str "T")
    (str "<a href=\x22mailto:x@y.com\x22>m</a>")
    ⟨str "mailto:x@y.com", [], str "m"⟩
    (by decide) (Or.inl (by decide))

/-- C9: every anchor the regex matches whose href is neither `mailto:`
nor a fragment is replaced by the fixed template anchor whose href is
`baseUrl ++ "/api/click?id=" ++ trackingId ++ "&url=" ++
encodeURIComponent url`, followed by the captured post-href attributes
and inner content; that rewritten anchor occurs verbatim in the output. -/
theorem rewritten_href_is_tracking_template
    (baseUrl s trackingId m : List Char) (am : AnchorMatch)
    (hm : (m, am) ∈ anchorMatches s)
    (h1 : startsWithL (str "mailto:") am.url = false)
    (h2 : startsWithL (str "#") am.url = false) :
    List.IsInfix
      (str "<a href=\x22" ++ trackingUrlOf baseUrl trackingId am.url
        ++ str "\x22" ++ am.attrs ++ str ">" ++ am.content ++ str "</a>")
      (rewriteLinksForTracking baseUrl s trackingId) := by
  have hrepl : anchorReplacer baseUrl trackingId m am
      = str "<a href=\x22" ++ trackingUrlOf baseUrl trackingId am.url
        ++ str "\x22" ++ am.attrs ++ str ">" ++ am.content ++ str "</a>" := by
    simp [anchorReplacer, h1, h2]
  have hinf := mem_matchesGo_isInfix (anchorReplacer baseUrl trackingId)
    s.length s m am hm
  rw [hrepl] at hinf
  exact hinf

theorem matchLitCI_decomp : ∀ (lit s r : List Char),
    matchLitCI lit s = some r →
    ∃ t, s = t ++ r ∧ t.map lcA = lit.map lcA := by
  intro lit
  induction lit with
  | nil =>
    intro s r h
    have h2 : some s = some r := h
    injection h2 with h3
    exact ⟨[], by simp [h3], rfl⟩
  | cons c cs ih =>
    intro s r h
    cases s with
    | nil => exact Option.noConfusion h
    | cons d ds =>
      have h2 : (if lcA d = lcA c then matchLitCI cs ds else none)
          = some r := h
      by_cases hc : lcA d = lcA c
      · rw [if_pos hc] at h2
        obtain ⟨t, ht, hmap⟩ := ih ds r h2
        exact ⟨d :: t, by rw [List.cons_append, ← ht], by simp [hmap, hc]⟩
      · rw [if_neg hc] at h2
        exact Option.noConfusion h2

theorem findClose_decomp : ∀ (s content r : List Char),
    findClose s = some (content, r) →
    ∃ cl, s = content ++ cl ++ r ∧ cl.map lcA = closeLit.map lcA := by
  intro s
  induction s with
  | nil => intro content r h; exact Option.noConfusion h
  | cons c rest ih =>
    intro content r h
    unfold findClose at h
    split at h
    · rename_i r2 hlit
      injection h with h2
      injection h2 with h3 h4
      obtain ⟨t, ht, hmap⟩ := matchLitCI_decomp closeLit (c :: rest) r2 hlit
      exact ⟨t, by rw [← h3, ← h4]; simpa using ht, hmap⟩
    · rename_i hlit
      split at h
      · exact Option.noConfusion h
      · cases hfc : findClose rest with
        | none => rw [hfc] at h; exact Option.noConfusion h
        | some p =>
          rw [hfc] at h
          obtain ⟨p1, p2⟩ := p
          injection h with h2
          injection h2 with h3 h4
          obtain ⟨cl, hcl, hmap⟩ := ih p1 p2 hfc
          refine ⟨cl, ?_, hmap⟩
          rw [← h3, ← h4]
          simp only [List.cons_append]
          rw [← hcl]

theorem matchRest_decomp (t : List Char) (am : AnchorMatch) (r : List Char)
    (h : matchRest t = some (am, r)) :
    ∃ hl cl, t = hl ++ am.url
        ++ '\x22' :: (am.attrs ++ '>' :: (am.content ++ cl ++ r))
      ∧ hl.map lcA = hrefLit.map lcA ∧ cl.map lcA = closeLit.map lcA := by
  unfold matchRest at h
  split at h
  · exact Option.noConfusion h
  · rename_i t1 hlit
    split at h
    · rename_i t3 hdw
      split at h
      · rename_i t5 hdw2
        split at h
        · rename_i content r2 hfc
          injection h with h2
          injection h2 with h3 h4
          subst h4
          subst h3
          dsimp only
          obtain ⟨hl, hht, hhm⟩ := matchLitCI_decomp hrefLit t t1 hlit
          have e1 : t1 = t1.takeWhile (fun c => c ≠ '\x22') ++ '\x22' :: t3 := by
            conv_lhs => rw [← List.takeWhile_append_dropWhile
              (fun c => c ≠ '\x22') t1]
            rw [hdw]
          have e2 : t3 = t3.takeWhile (fun c => c ≠ '>') ++ '>' :: t5 := by
            conv_lhs => rw [← List.takeWhile_append_dropWhile
              (fun c => c ≠ '>') t3]
            rw [hdw2]
          obtain ⟨cl, hct, hcm⟩ := findClose_decomp t5 content r2 hfc
          rw [hct] at e2
          rw [e2] at e1
          rw [e1] at hht
          refine ⟨hl, cl, ?_, hhm, hcm⟩
          rw [hht]
          simp [List.append_assoc]
        · exact Option.noConfusion h
      · exact Option.noConfusion h
    · exact Option.noConfusion h

theorem tryDownSfx_decomp : ∀ (k : Nat) (u : List Char) (am : AnchorMatch)
    (r : List Char), tryDownSfx u k = some (am, r) →
    ∃ g t2, u = g ++ t2 ∧ matchRest t2 = some (am, r) := by
  intro k
  induction k with
  | zero => intro u am r h; exact Option.noConfusion h
  | succ k ih =>
    intro u am r h
    unfold tryDownSfx at h
    split at h
    · rename_i x hmr
      injection h with h1
      subst h1
      exact ⟨u.take (k + 1), u.drop (k + 1),
        (List.take_append_drop (k + 1) u).symm, hmr⟩
    · exact ih u am r h

theorem groupGo_decomp : ∀ (w : List Char) (am : AnchorMatch)
    (r : List Char), groupGo w = some (am, r) →
    ∃ g t2, w = g ++ t2 ∧ matchRest t2 = some (am, r) := by
  intro w
  induction w with
  | nil => intro am r h; exact Option.noConfusion h
  | cons c rest ih =>
    intro am r h
    unfold groupGo at h
    split at h
    · exact Option.noConfusion h
    · split at h
      · rename_i x hx
        injection h with h1
        subst h1
        by_cases hws : isWsJS c = true
        · rw [if_pos hws] at hx
          exact tryDownSfx_decomp _ (c :: rest) am r hx
        · rw [if_neg hws] at hx
          exact Option.noConfusion hx
      · rename_i hx
        obtain ⟨g, t2, hg, hmr⟩ := ih am r h
        exact ⟨c :: g, t2, by rw [List.cons_append, hg], hmr⟩

theorem matchAfterA_decomp (w : List Char) (am : AnchorMatch)
    (r : List Char) (h : matchAfterA w = some (am, r)) :
    ∃ g t2, w = g ++ t2 ∧ matchRest t2 = some (am, r) := by
  unfold matchAfterA at h
  split at h
  · exact Option.noConfusion h
  · rename_i c tail
    split at h
    · dsimp only at h
      split at h
      · rename_i x hg
        injection h with h1
        subst h1
        obtain ⟨g2, t2, hgg, hmr⟩ := groupGo_decomp
          ((c :: tail).dropWhile isWsJS) am r hg
        refine ⟨(c :: tail).takeWhile isWsJS ++ g2, t2, ?_, hmr⟩
        rw [List.append_assoc, ← hgg, List.takeWhile_append_dropWhile]
      · rename_i hg
        exact ⟨(c :: tail).takeWhile isWsJS, (c :: tail).dropWhile isWsJS,
          (List.takeWhile_append_dropWhile _ _).symm, h⟩
    · exact Option.noConfusion h

theorem tryMatchHere_decomp (s m : List Char) (am : AnchorMatch)
    (r : List Char) (h : tryMatchHere s = some (m, am, r)) :
    s = m ++ r ∧
    ∃ pre hl cl, m = pre ++ (hl ++ (am.url
        ++ '\x22' :: (am.attrs ++ '>' :: (am.content ++ cl))))
      ∧ hl.map lcA = hrefLit.map lcA ∧ cl.map lcA = closeLit.map lcA := by
  unfold tryMatchHere at h
  split at h
  · rename_i c w
    split at h
    · split at h
      · rename_i am2 rest hma
        injection h with h1
        injection h1 with hm h2
        injection h2 with ham hr
        subst ham
        subst hr
        obtain ⟨g, t2, hw, hmr⟩ := matchAfterA_decomp w am2 rest hma
        obtain ⟨hl, cl, ht2, hhm, hcm⟩ := matchRest_decomp t2 am2 rest hmr
        have hs : '<' :: c :: w
            = ('<' :: c :: (g ++ (hl ++ (am2.url
                ++ '\x22' :: (am2.attrs ++ '>' :: (am2.content ++ cl))))))
              ++ rest := by
          rw [hw, ht2]
          simp [List.append_assoc]
        have hm2 : m = '<' :: c :: (g ++ (hl ++ (am2.url
            ++ '\x22' :: (am2.attrs ++ '>' :: (am2.content ++ cl))))) := by
          rw [← hm, hs, List.length_append, Nat.add_sub_cancel,
            List.take_left]
        refine ⟨by rw [hm2]; exact hs, '<' :: c :: g, hl, cl, ?_, hhm, hcm⟩
        rw [hm2]
        simp [List.append_assoc]
      · exact Option.noConfusion h
    · exact Option.noConfusion h
  · exact Option.noConfusion h

theorem mem_matchesGo_exists : ∀ (fuel : Nat) (s m : List Char)
    (am : AnchorMatch), (m, am) ∈ matchesGo fuel s →
    ∃ s2 r, tryMatchHere s2 = some (m, am, r) := by
  intro fuel
  induction fuel with
  | zero => intro s m am h; exact absurd h (by simp [matchesGo])
  | succ fuel ih =>
    intro s m am h
    cases s with
    | nil => exact absurd h (by simp [matchesGo])
    | cons c rest =>
      cases htm : tryMatchHere (c :: rest) with
      | some x =>
        obtain ⟨m2, am2, r⟩ := x
        have hmg : matchesGo (fuel + 1) (c :: rest)
            = (m2, am2) :: matchesGo fuel r := by
          conv_lhs => unfold matchesGo
          rw [htm]
        rw [hmg] at h
        rcases List.mem_cons.mp h with heq | htail
        · injection heq with h1 h2
          subst h1
          subst h2
          exact ⟨c :: rest, r, htm⟩
        · exact ih r m am htail
      | none =>
        have hmg : matchesGo (fuel + 1) (c :: rest) = matchesGo fuel rest := by
          conv_lhs => unfold matchesGo
          rw [htm]
        rw [hmg] at h
        exact ih rest m am h

/-- Witness for C9 at the spec's concrete anchor example. -/
theorem rewritten_href_is_tracking_template_witness :
    List.IsInfix
      (str "<a href=\x22" ++ trackingUrlOf (str "B") (str "T")
          (str "https://x.com")
        ++ str "\x22" ++ ([] : List Char) ++ str ">" ++ str "link"
        ++ str "</a>")
      (rewriteLinksForTracking (str "B")
        (str "<a href=\x22https://x.com\x22>link</a>") (str "T")) :=
  rewritten_href_is_tracking_template (str "B")
    (str "<a href=\x22https://x.com\x22>link</a>") (str "T")
    (str "<a href=\x22https://x.com\x22>link</a>")
    ⟨str "https://x.com", [], str "link"⟩
    (by decide) (by decide) (by decide)

/-- C1 (amended): for every anchor the regex matches whose href is
neither `mailto:` nor a fragment, the matched text decomposes as a prefix
(the open tag and any attributes before the href, which the replacement
drops), the href literal and quoted url, then the post-href attributes,
the inner content and the close tag; the output contains the rewritten
anchor rebuilt from exactly those captured post-href attributes and that
inner content (verbatim), with only the href value changed.  Attributes
written before the href are not preserved (see the counterexample). -/
theorem rewrite_preserves_post_href_attrs_and_content
    (baseUrl s trackingId m : List Char) (am : AnchorMatch)
    (hm : (m, am) ∈ anchorMatches s)
    (h1 : startsWithL (str "mailto:") am.url = false)
    (h2 : startsWithL (str "#") am.url = false) :
    (∃ pre hl cl, m = pre ++ (hl ++ (am.url
        ++ '\x22' :: (am.attrs ++ '>' :: (am.content ++ cl))))
      ∧ hl.map lcA = hrefLit.map lcA ∧ cl.map lcA = closeLit.map lcA)
    ∧ List.IsInfix
        (str "<a href=\x22" ++ trackingUrlOf baseUrl trackingId am.url
          ++ str "\x22" ++ am.attrs ++ str ">" ++ am.content ++ str "</a>")
        (rewriteLinksForTracking baseUrl s trackingId) := by
  constructor
  · obtain ⟨s2, r, htm⟩ := mem_matchesGo_exists s.length s m am hm
    exact (tryMatchHere_decomp s2 m am r htm).2
  · have hrepl : anchorReplacer baseUrl trackingId m am
        = str "<a href=\x22" ++ trackingUrlOf baseUrl trackingId am.url
          ++ str "\x22" ++ am.attrs ++ str ">" ++ am.content
          ++ str "</a>" := by
      simp [anchorReplacer, h1, h2]
    have hinf := mem_matchesGo_isInfix (anchorReplacer baseUrl trackingId)
      s.length s m am hm
    rw [hrepl] at hinf
    exact hinf

/-- Witness for C1 (amended) at a concrete anchor carrying an attribute
before its href. -/
theorem rewrite_preserves_post_href_attrs_and_content_witness :
    (∃ pre hl cl,
      str "<a class=\x22x\x22 href=\x22https://a.com\x22>t</a>"
        = pre ++ (hl ++ (str "https://a.com"
            ++ '\x22' :: (([] : List Char) ++ '>' :: (str "t" ++ cl))))
      ∧ hl.map lcA = hrefLit.map lcA ∧ cl.map lcA = closeLit.map lcA)
    ∧ List.IsInfix
        (str "<a href=\x22" ++ trackingUrlOf (str "B") (str "T")
            (str "https://a.com")
          ++ str "\x22" ++ ([] : List Char) ++ str ">" ++ str "t"
          ++ str "</a>")
        (rewriteLinksForTracking (str "B")
          (str "<a class=\x22x\x22 href=\x22https://a.com\x22>t</a>")
          (str "T")) :=
  rewrite_preserves_post_href_attrs_and_content (str "B")
    (str "<a class=\x22x\x22 href=\x22https://a.com\x22>t</a>") (str "T")
    (str "<a class=\x22x\x22 href=\x22https://a.com\x22>t</a>")
    ⟨str "https://a.com", [], str "t"⟩
    (by decide) (by decide) (by decide)

/-- C1 counterexample: the anchor
`<a class="x" href="https://a.com">t</a>` carries the attribute
`class="x"` before its href; the attribute occurs in the input but
nowhere in the rewritten fragment — the rewrite drops attributes placed
before the href instead of preserving them verbatim. -/
theorem rewrite_drops_pre_href_attrs_cex :
    List.IsInfix (str "class=\x22x\x22")
        (str "<a class=\x22x\x22 href=\x22https://a.com\x22>t</a>")
    ∧ ¬ List.IsInfix (str "class=\x22x\x22")
        (rewriteLinksForTracking (str "B")
          (str "<a class=\x22x\x22 href=\x22https://a.com\x22>t</a>")
          (str "T")) :=
  ⟨by decide, by decide⟩

theorem quote_of_tryMatchHere (s m : List Char) (am : AnchorMatch)
    (r : List Char) (h : tryMatchHere s = some (m, am, r)) :
    '\x22' ∈ s := by
  obtain ⟨hsr, pre, hl, cl, hm, _, _⟩ := tryMatchHere_decomp s m am r h
  rw [hsr, hm]
  simp

theorem replaceGo_no_quote (f : List Char → AnchorMatch → List Char) :
    ∀ (fuel : Nat) (s : List Char), '\x22' ∉ s → replaceGo f fuel s = s := by
  intro fuel
  induction fuel with
  | zero => intro s h; rfl
  | succ fuel ih =>
    intro s h
    cases s with
    | nil => rfl
    | cons c rest =>
      cases htm : tryMatchHere (c :: rest) with
      | some x =>
        obtain ⟨m, am, r⟩ := x
        exact absurd (quote_of_tryMatchHere (c :: rest) m am r htm) h
      | none =>
        have hrg : replaceGo f (fuel + 1) (c :: rest)
            = c :: replaceGo f fuel rest := by
          conv_lhs => unfold replaceGo
          rw [htm]
        rw [hrg, ih rest (fun hmem => h (List.mem_cons_of_mem c hmem))]

/-- C10: the regex's href capture requires a double-quote-delimited
value, so a fragment containing no double quote at all — in particular
one whose anchors use single-quoted or unquoted href attributes — is
returned byte-identical by the rewrite: no anchor in it is redirected
through the indirection endpoint and its traversal is never tracked. -/
theorem single_quoted_anchors_untouched
    (baseUrl s trackingId : List Char) (hq : '\x22' ∉ s) :
    rewriteLinksForTracking baseUrl s trackingId = s :=
  replaceGo_no_quote (anchorReplacer baseUrl trackingId) s.length s hq

/-- Witness for C10 at the single-quoted anchor
`<a href='https://x.com'>link</a>` (the quote characters are written as
`Char.ofNat 39`). -/
theorem single_quoted_anchors_untouched_witness :
    rewriteLinksForTracking (str "B")
        (str "<a href=" ++ [Char.ofNat 39] ++ str "https://x.com"
          ++ [Char.ofNat 39] ++ str ">link</a>") (str "T")
      = str "<a href=" ++ [Char.ofNat 39] ++ str "https://x.com"
          ++ [Char.ofNat 39] ++ str ">link</a>" :=
  single_quoted_anchors_untouched (str "B")
    (str "<a href=" ++ [Char.ofNat 39] ++ str "https://x.com"
      ++ [Char.ofNat 39] ++ str ">link</a>") (str "T") (by decide)

end JobTracker

